import Mathlib

/-!
Verification of the document-navigation core of the `paper-assistant`
repository (`src/pdf_reader_mcp/toc.py` and `src/pdf_reader_mcp/tools.py`).

Python strings are modelled as `List Char` (ASCII-faithful: `str.lower`,
`str.strip`, the `\s` class and the regexes used by the code only ever meet
ASCII text in the properties below).  Python floats (font sizes, match
scores) are modelled as `ℚ`; the arithmetic performed by the code on them
(`*1.25`, `*1.5`, ratios of small integer lengths, `statistics.median`) is
exact on the rationals wherever the claims touch it.  Python `int` is `Int`.
-/

namespace PdfSpec

/-! ### Python string primitives on `List Char` -/

/-- Python whitespace class (`str.strip`, `str.split`, regex `\s`) restricted
to its ASCII members. -/
def isPyWs (c : Char) : Bool :=
  c = ' ' || c = '\t' || c = '\n' || c = '\r' || c = '\x0b' || c = '\x0c'

/-- `s.strip()` : drop leading and trailing whitespace. -/
def stripStr (s : List Char) : List Char :=
  ((s.dropWhile isPyWs).reverse.dropWhile isPyWs).reverse

/-- `s.lower()` (ASCII). -/
def lowerStr (s : List Char) : List Char := s.map Char.toLower

/-- `re.sub(r"\s+", "", s)` : remove every whitespace character. -/
def removeWs (s : List Char) : List Char := s.filter (fun c => !(isPyWs c))

/-- Auxiliary for `splitWs`: accumulates the current word (reversed). -/
def splitWsAux : List Char → List Char → List (List Char)
  | [], acc => if acc = [] then [] else [acc.reverse]
  | c :: cs, acc =>
    if isPyWs c then
      if acc = [] then splitWsAux cs [] else acc.reverse :: splitWsAux cs []
    else splitWsAux cs (c :: acc)

/-- `s.split()` : split on whitespace runs, dropping empty words. -/
def splitWs (s : List Char) : List (List Char) := splitWsAux s []

/-- Lowest index `i` with `p` a prefix of `h.drop i` (Python `h.find(p)`). -/
def findSub (p : List Char) : List Char → Option Nat
  | [] => if p.isPrefixOf ([] : List Char) then some 0 else none
  | c :: t => if p.isPrefixOf (c :: t) then some 0 else (findSub p t).map (· + 1)

/-- Whether `needle` occurs in `hay` (Python `needle in hay`). -/
def containsSub (hay needle : List Char) : Bool := (findSub needle hay).isSome

/-! ### The regular expressions of `toc.py`

`numbered_heading_re = re.compile(r"^(\d+\.?\d*\.?\d*)\s+[A-Z]")` and
`uppercase_heading_re = re.compile(r"^[A-Z][A-Z\s:&-]{4,}$")`, both used via
`re.match` (anchored at the start).  The character classes of consecutive
regex elements are disjoint, so greedy left-to-right matching with no
backtracking decides them. -/

/-- `re.match` of `^(\d+\.?\d*\.?\d*)\s+[A-Z]` (succeeds or not). -/
def numberedHeadingMatch (s : List Char) : Bool :=
  let p1 := s.span Char.isDigit
  if p1.1 = [] then false
  else
    let r2 := match p1.2 with
      | '.' :: t => t
      | l => l
    let r3 := (r2.span Char.isDigit).2
    let r4 := match r3 with
      | '.' :: t => t
      | l => l
    let r5 := (r4.span Char.isDigit).2
    let p6 := r5.span isPyWs
    if p6.1 = [] then false
    else
      match p6.2 with
      | c :: _ => decide ('A' ≤ c ∧ c ≤ 'Z')
      | [] => false

/-- Character class `[A-Z\s:&-]` of the uppercase-heading regex. -/
def isUpperHeadChar (c : Char) : Bool :=
  decide ('A' ≤ c ∧ c ≤ 'Z') || isPyWs c || c = ':' || c = '&' || c = '-'

/-- `re.match` of `^[A-Z][A-Z\s:&-]{4,}$`. -/
def uppercaseHeadingMatch (s : List Char) : Bool :=
  match s with
  | [] => false
  | c :: rest => decide ('A' ≤ c ∧ c ≤ 'Z') && decide (4 ≤ rest.length) && rest.all isUpperHeadChar

/-! ### `statistics.median` on rationals -/

/-- Insert into a sorted list (ascending). -/
def insertQ (x : ℚ) : List ℚ → List ℚ
  | [] => [x]
  | y :: ys => if x ≤ y then x :: y :: ys else y :: insertQ x ys

/-- Insertion sort; `statistics.median` sorts its data, and sorting a list over
a linear order is unique, so any sort models it. -/
def sortQ : List ℚ → List ℚ
  | [] => []
  | x :: xs => insertQ x (sortQ xs)

/-- `statistics.median`: middle element for odd length, mean of the two middle
elements for even length (callers guarantee non-empty input). -/
def median (l : List ℚ) : ℚ :=
  let s := sortQ l
  let n := s.length
  if n % 2 = 1 then s.getD (n / 2) 0
  else (s.getD (n / 2 - 1) 0 + s.getD (n / 2) 0) / 2

/-! ### Data model (the shapes `fitz` hands to the code) -/

/-- One text span of `page.get_text("dict")`: its text, font size and flags
(bit 4 = bold). -/
structure Span where
  text : List Char
  size : ℚ
  flags : Nat
deriving DecidableEq

/-- One line: a list of spans. -/
structure TextLine where
  spans : List Span
deriving DecidableEq

/-- One block: its `type` (0 = text) and its lines. -/
structure Block where
  btype : Int
  lines : List TextLine
deriving DecidableEq

/-- The dict `doc.extract_image(xref)` would return: dimensions, format
extension and raw bytes.  `extract = none` on a `PageImage` models a raised
exception or a falsy result. -/
structure ImageInfo where
  width : Int
  height : Int
  ext : List Char
  data : List Char
deriving DecidableEq

/-- One entry of `page.get_images(full=True)` together with the outcome that
`doc.extract_image` has for its xref. -/
structure PageImage where
  extract : Option ImageInfo
deriving DecidableEq

/-- One page: its `get_text()` result, its `get_text("dict")` blocks and its
embedded images. -/
structure PageData where
  text : List Char
  blocks : List Block
  images : List PageImage
deriving DecidableEq

/-- One entry `(level, title, page)` of `doc.get_toc(simple=True)`. -/
structure NativeEntry where
  level : Int
  title : List Char
  page : Int
deriving DecidableEq

/-- A document as the code observes it through PyMuPDF. -/
structure Document where
  pages : List PageData
  nativeToc : List NativeEntry
deriving DecidableEq

/-- A TOC entry as produced by `get_toc` / `detect_headings`:
`{"title": str, "page": int (1-based), "level": int}`. -/
structure TocEntry where
  title : List Char
  page : Int
  level : Int
deriving DecidableEq

/-! ### `toc.py` : `detect_headings` -/

/-- Concatenation of the span texts of a line (`line_text += span["text"]`). -/
def lineText (l : TextLine) : List Char := l.spans.foldl (fun acc s => acc ++ s.text) []

/-- Maximum span size of a line, starting from `0.0`
(`if size > max_size: max_size = size`). -/
def lineMaxSize (l : TextLine) : ℚ := l.spans.foldl (fun m s => if m < s.size then s.size else m) 0

/-- Whether any span of the line has the bold bit `1 << 4` set. -/
def lineBold (l : TextLine) : Bool := l.spans.any (fun s => s.flags &&& 16 != 0)

/-- The record appended to `spans_info` for one kept line. -/
structure LineInfo where
  text : List Char
  size : ℚ
  bold : Bool
  page : Nat
deriving DecidableEq

/-- All font sizes contributed by one block (every span of a type-0 block,
whether or not its line survives the emptiness filter). -/
def blockSizes (b : Block) : List ℚ :=
  if b.btype = 0 then b.lines.flatMap (fun l => l.spans.map Span.size) else []

/-- `font_sizes`: every span size of every type-0 block, in scan order. -/
def fontSizes (doc : Document) : List ℚ :=
  doc.pages.flatMap (fun p => p.blocks.flatMap blockSizes)

/-- The `spans_info` records contributed by one block of page `pidx`
(lines whose stripped text is non-empty). -/
def blockLineInfos (pidx : Nat) (b : Block) : List LineInfo :=
  if b.btype = 0 then
    b.lines.filterMap (fun l =>
      let t := stripStr (lineText l)
      if t = [] then none else some ⟨t, lineMaxSize l, lineBold l, pidx⟩)
  else []

/-- The `spans_info` records of one page. -/
def pageLineInfos (pidx : Nat) (p : PageData) : List LineInfo :=
  p.blocks.flatMap (blockLineInfos pidx)

/-- `spans_info`: all kept lines across the document, in page-scan order. -/
def spansInfo (doc : Document) : List LineInfo :=
  doc.pages.enum.flatMap (fun pe => pageLineInfos pe.1 pe.2)

/-- The heading classification chain of `detect_headings` for one line, given
the document median font size `m`: size threshold first, then bold + pattern
promotion, then numbered-pattern promotion.  Returns the level if the line is
a heading. -/
def classifyLevel (m : ℚ) (info : LineInfo) : Option Int :=
  if m * (5 / 4) ≤ info.size then some (if m * (3 / 2) ≤ info.size then 1 else 2)
  else if info.bold = true ∧ m ≤ info.size ∧
      (numberedHeadingMatch info.text = true ∨ uppercaseHeadingMatch info.text = true) then
    some 1
  else if numberedHeadingMatch info.text = true ∧ m ≤ info.size then some 1
  else none

/-- Length filter plus classification for one `spans_info` record. -/
def headingOf (m : ℚ) (info : LineInfo) : Option TocEntry :=
  if 120 < info.text.length ∨ info.text.length < 2 then none
  else (classifyLevel m info).map (fun lvl => ⟨info.text, (info.page : Int) + 1, lvl⟩)

/-- A line with stripped text `t` occurs in some type-0 block of the page. -/
def lineOccursOn (pd : PageData) (t : List Char) : Prop :=
  ∃ b ∈ pd.blocks, b.btype = 0 ∧ ∃ l ∈ b.lines, stripStr (lineText l) = t

/-- `detect_headings(doc)` from `toc.py`. -/
def detect_headings (doc : Document) : List TocEntry :=
  let fs := fontSizes doc
  if fs = [] then []
  else (spansInfo doc).filterMap (headingOf (median fs))

/-! ### `toc.py` : `get_toc` -/

/-- `get_toc(doc)` from `toc.py`: native outline first (entries with empty
stripped titles dropped), heuristic detection only when the native outline is
the empty list. -/
def get_toc (doc : Document) : List TocEntry :=
  if doc.nativeToc = [] then detect_headings doc
  else
    doc.nativeToc.filterMap (fun en =>
      let t := stripStr en.title
      if t = [] then none else some ⟨t, en.page, en.level⟩)

/-! ### `toc.py` : `find_section_pages` -/

/-- `entry["title"].lower().strip()` — the normalisation applied to both the
query and each candidate title. -/
def tocNorm (t : List Char) : List Char := stripStr (lowerStr t)

/-- The exact-match condition of the scan loop: normalised equality, or
equality after removing all whitespace. -/
def exactMatch (q qns : List Char) (e : TocEntry) : Prop :=
  q = tocNorm e.title ∨ qns = removeWs (tocNorm e.title)

instance (q qns : List Char) (e : TocEntry) : Decidable (exactMatch q qns e) := by
  unfold exactMatch
  infer_instance

/-- The scan loop of `find_section_pages` over the enumerated TOC, carrying
`best_idx` (sentinel `-1`) and `best_score`; an exact match returns its index
immediately (the `break`). -/
def scanToc (q qns : List Char) : List (Nat × TocEntry) → Int → ℚ → Int
  | [], bi, _ => bi
  | (i, e) :: rest, bi, bs =>
    let tl := tocNorm e.title
    let tns := removeWs tl
    if q = tl ∨ qns = tns then (i : Int)
    else if containsSub tl q = true ∨ containsSub q tl = true then
      let sc : ℚ := (q.length : ℚ) / ((max tl.length 1 : Nat) : ℚ)
      if bs < sc then scanToc q qns rest (i : Int) sc else scanToc q qns rest bi bs
    else
      let qw := (splitWs q).dedup
      let tw := (splitWs tl).dedup
      let ov := qw.filter (fun w => decide (w ∈ tw))
      if ov = [] then scanToc q qns rest bi bs
      else
        let sc : ℚ := (ov.length : ℚ) / ((max ((qw ++ tw).dedup).length 1 : Nat) : ℚ)
        if bs < sc then scanToc q qns rest (i : Int) sc else scanToc q qns rest bi bs

/-- The end-page loop: the page (minus one) of the first later entry whose
level is at most the matched level, else `total_pages`. -/
def nextEnd : List TocEntry → Int → Int → Int
  | [], _, total => total
  | e :: rest, lvl, total => if e.level ≤ lvl then e.page - 1 else nextEnd rest lvl total

/-- `find_section_pages(toc, section_title, total_pages)` from `toc.py`. -/
def find_section_pages (toc : List TocEntry) (sectionTitle : List Char) (totalPages : Int) :
    Option (Int × Int) :=
  let query := tocNorm sectionTitle
  let qns := removeWs query
  let bi := scanToc query qns toc.enum (-1) 0
  if bi < 0 then none
  else
    let e := toc.getD bi.toNat ⟨[], 0, 0⟩
    some (e.page - 1, nextEnd (toc.drop (bi.toNat + 1)) e.level totalPages)

/-! ### `tools.py` : shared page access -/

/-- `doc[i].get_text()` with Python's integer indexing: a negative index wraps
from the end.  An index outside `[-len, len)` raises `IndexError` in Python;
that branch is modelled as the empty string and is unreachable in every
property below. -/
def pageTextAt (doc : Document) (i : Int) : List Char :=
  let n : Int := doc.pages.length
  if 0 ≤ i ∧ i < n then (doc.pages.getD i.toNat ⟨[], [], []⟩).text
  else if -n ≤ i ∧ i < 0 then (doc.pages.getD (i + n).toNat ⟨[], [], []⟩).text
  else []

/-- `range(a, b)` over Python ints. -/
def intRange (a b : Int) : List Int :=
  (List.range (b - a).toNat).map (fun (k : Nat) => a + (k : Int))

/-- The per-page text blocks the reading tools emit: `(1-based page number,
trimmed page text)` for each page of the range. -/
def readSlice (doc : Document) (a b : Int) : List (Int × List Char) :=
  (intRange a b).map (fun i => (i + 1, stripStr (pageTextAt doc i)))

/-- Sum of the character counts of the emitted page texts (`total_chars`). -/
def sliceChars (pgs : List (Int × List Char)) : Nat := (pgs.map (fun pr => pr.2.length)).sum

/-! ### `tools.py` : `pdf_read_pages` -/

/-- Outcome of `pdf_read_pages`, with the values the returned string reports:
the error messages, or the header fields (pages actually returned, page
count, total character count) plus the page blocks. -/
inductive ReadResult where
  | errStart (s total : Int)
  | errEnd (e s : Int)
  | ok (startP endP pageCount : Int) (totalChars : Nat) (pages : List (Int × List Char))
deriving DecidableEq

/-- `pdf_read_pages(file_path, start_page, end_page)` from `tools.py`
(the document is already resolved and open). -/
def pdf_read_pages (doc : Document) (startPage endPage : Int) : ReadResult :=
  let total : Int := doc.pages.length
  let e0 := if endPage ≤ 0 then startPage else endPage
  if startPage < 1 ∨ total < startPage then .errStart startPage total
  else if e0 < startPage then .errEnd e0 startPage
  else
    let e1 := if total < e0 then total else e0
    let pc0 := e1 - startPage + 1
    let e2 := if 10 < pc0 then startPage + 9 else e1
    let pc := if 10 < pc0 then (10 : Int) else pc0
    let pgs := readSlice doc (startPage - 1) e2
    .ok startPage e2 pc (sliceChars pgs) pgs

/-! ### `tools.py` : `pdf_read_section` -/

/-- Outcome of `pdf_read_section`: no TOC, query not resolved (with the first
20 known titles), or a section with its header fields and truncation flag. -/
inductive SectionResult where
  | errNoToc
  | errNotFound (available : List (List Char))
  | ok (title : List Char) (startP endP pageCount : Int) (totalChars : Nat)
      (trunc : Bool) (pages : List (Int × List Char))
deriving DecidableEq

/-- `pdf_read_section(file_path, section_title)` from `tools.py`. -/
def pdf_read_section (doc : Document) (sectionTitle : List Char) : SectionResult :=
  let toc := get_toc doc
  if toc = [] then .errNoToc
  else
    match find_section_pages toc sectionTitle (doc.pages.length : Int) with
    | none => .errNotFound ((toc.take 20).map TocEntry.title)
    | some se =>
      let s0 := se.1
      let pc0 := se.2 - s0
      let e1 := if 15 < pc0 then s0 + 15 else se.2
      let pc := if 15 < pc0 then (15 : Int) else pc0
      let pgs := readSlice doc s0 e1
      let title := ((toc.find? (fun en => decide (en.page - 1 = s0))).map TocEntry.title).getD
        sectionTitle
      .ok title s0 e1 pc (sliceChars pgs) (decide (pc = 15)) pgs

/-- The truncation flag of a successful `pdf_read_section` call. -/
def sectionTrunc : SectionResult → Option Bool
  | .ok _ _ _ _ _ tr _ => some tr
  | _ => none

/-! ### `tools.py` : `pdf_get_page_images` -/

/-- The fixed `mime_map` of the code, with the `image/<ext>` fallback. -/
def mimeOf (ext : List Char) : List Char :=
  if ext = ['p', 'n', 'g'] then ['i', 'm', 'a', 'g', 'e', '/', 'p', 'n', 'g']
  else if ext = ['j', 'p', 'e', 'g'] then ['i', 'm', 'a', 'g', 'e', '/', 'j', 'p', 'e', 'g']
  else if ext = ['j', 'p', 'g'] then ['i', 'm', 'a', 'g', 'e', '/', 'j', 'p', 'e', 'g']
  else if ext = ['j', 'x', 'r'] then ['i', 'm', 'a', 'g', 'e', '/', 'j', 'x', 'r']
  else if ext = ['j', 'p', 'x'] then ['i', 'm', 'a', 'g', 'e', '/', 'j', 'p', 'x']
  else if ext = ['b', 'm', 'p'] then ['i', 'm', 'a', 'g', 'e', '/', 'b', 'm', 'p']
  else if ext = ['t', 'i', 'f', 'f'] then ['i', 'm', 'a', 'g', 'e', '/', 't', 'i', 'f', 'f']
  else ['i', 'm', 'a', 'g', 'e', '/'] ++ ext

/-- One element of the returned content list: an image payload or a text
caption carrying the (0-based) enumerate index and the dimensions. -/
inductive ImgEntry where
  | image (data : List Char) (mime : List Char)
  | caption (idx : Nat) (width height : Int) (ext : List Char)
deriving DecidableEq

/-- Whether an embedded image survives: extraction succeeded, the bytes are
non-empty, and both dimensions are at least 50. -/
def imgSurvives (img : PageImage) : Bool :=
  match img.extract with
  | none => false
  | some info => decide (info.data ≠ []) && decide (50 ≤ info.width) && decide (50 ≤ info.height)

/-- The extraction loop over the enumerated image list: results in order and
the skip count. -/
def processImages : List (Nat × PageImage) → List ImgEntry × Nat
  | [] => ([], 0)
  | (idx, img) :: rest =>
    match img.extract with
    | none =>
      let pr := processImages rest
      (pr.1, pr.2 + 1)
    | some info =>
      if info.data = [] then
        let pr := processImages rest
        (pr.1, pr.2 + 1)
      else if info.width < 50 ∨ info.height < 50 then
        let pr := processImages rest
        (pr.1, pr.2 + 1)
      else
        let pr := processImages rest
        (.image info.data (mimeOf info.ext) :: .caption idx info.width info.height info.ext :: pr.1,
          pr.2)

/-- Outcome of `pdf_get_page_images`: page out of range, no embedded images,
all images filtered/unreadable, or the summary (extracted and skipped counts)
plus the content entries. -/
inductive ImagesResult where
  | errPage (p total : Int)
  | noImages (p : Int)
  | allFiltered (p : Int) (n : Nat)
  | ok (p : Int) (extracted skipped : Nat) (entries : List ImgEntry)
deriving DecidableEq

/-- `pdf_get_page_images(file_path, page_number)` from `tools.py`.  The
reported extracted count is `len(results) // 2`, exactly as the code computes
it from the two entries appended per surviving image. -/
def pdf_get_page_images (doc : Document) (pageNumber : Int) : ImagesResult :=
  let total : Int := doc.pages.length
  if pageNumber < 1 ∨ total < pageNumber then .errPage pageNumber total
  else
    let imgs := (doc.pages.getD (pageNumber - 1).toNat ⟨[], [], []⟩).images
    if imgs = [] then .noImages pageNumber
    else
      let pr := processImages imgs.enum
      if pr.1 = [] then .allFiltered pageNumber imgs.length
      else .ok pageNumber (pr.1.length / 2) pr.2 pr.1

/-! ### `tools.py` : `pdf_search` -/

/-- A materialised context snippet: 1-based page, the window text (newlines
flattened, stripped), and whether the window was clipped on either side. -/
structure Snippet where
  page : Nat
  text : List Char
  clipL : Bool
  clipR : Bool
deriving DecidableEq

/-- The snippet built for a hit at position `pos` of a page: 100 raw
characters of context on both sides, newlines replaced by spaces, stripped,
with clip markers whenever the window does not reach the page boundary. -/
def mkSnippet (rawText : List Char) (pageNum : Nat) (pos qlen : Nat) : Snippet :=
  let cs := pos - 100
  let ce := min rawText.length (pos + qlen + 100)
  let body := stripStr (((rawText.drop cs).take (ce - cs)).map
    (fun c => if c = '\n' then ' ' else c))
  ⟨pageNum, body, decide (0 < cs), decide (ce < rawText.length)⟩

/-- The `while True` scan of one page, fuelled by the page length: each step
finds the next occurrence at or after `s` and restarts at `pos + 1`.  The
fuel `tl.length + 1` is enough for every possible scan. -/
def occsAux (ql : List Char) : Nat → Nat → List Char → List Nat
  | 0, _, _ => []
  | fuel + 1, s, tl =>
    match findSub ql (tl.drop s) with
    | none => []
    | some k => (s + k) :: occsAux ql fuel (s + k + 1) tl

/-- All match start positions of `ql` in `tl`, in scan order (overlapping
occurrences included, because the scan advances by one past each start). -/
def occs (tl ql : List Char) : List Nat := occsAux ql (tl.length + 1) 0 tl

/-- The snippet-materialisation loop over the hits of one page: a snippet is
appended only while fewer than `max_results` snippets exist. -/
def appendSnips (maxR : Int) (rawText : List Char) (pageNum qlen : Nat) :
    List Nat → List Snippet → List Snippet
  | [], ms => ms
  | pos :: ps, ms =>
    appendSnips maxR rawText pageNum qlen ps
      (if (ms.length : Int) < maxR then ms ++ [mkSnippet rawText pageNum pos qlen] else ms)

/-- The page loop of `pdf_search`, carrying the materialised snippets and the
per-page tally (pages with at least one hit, in ascending page order — the
order `sorted(pages_with_hits.items())` produces). -/
def searchPages (maxR : Int) (qlen : Nat) (ql : List Char) :
    List (Nat × PageData) → List Snippet → List (Nat × Nat) → List Snippet × List (Nat × Nat)
  | [], ms, tl => (ms, tl)
  | pe :: rest, ms, tl =>
    let raw := pe.2.text
    let ps := occs (lowerStr raw) ql
    let ms' := appendSnips maxR raw (pe.1 + 1) qlen ps ms
    let tl' := if ps.length = 0 then tl else tl ++ [(pe.1 + 1, ps.length)]
    searchPages maxR qlen ql rest ms' tl'

/-- Outcome of `pdf_search`: empty-query error, the no-results message (no
header, no counts), or the header data (total hits, per-page breakdown,
snippets, and whether the follow-up cap note is shown). -/
inductive SearchResult where
  | errEmptyQuery
  | noResults
  | ok (totalHits : Nat) (breakdown : List (Nat × Nat)) (snippets : List Snippet) (capNote : Bool)
deriving DecidableEq

/-- `pdf_search(file_path, query, max_results)` from `tools.py`. -/
def pdf_search (doc : Document) (query : List Char) (maxResults : Int) : SearchResult :=
  if stripStr query = [] then .errEmptyQuery
  else
    let res := searchPages maxResults query.length (lowerStr query) doc.pages.enum [] []
    if res.1 = [] then .noResults
    else
      let th := (res.2.map Prod.snd).sum
      .ok th res.2 res.1 (decide ((maxResults : Int) < (th : Int)))

/-- Specification-level count of the occurrences of `ql` in `tl`: the number
of start positions whose suffix begins with `ql`. -/
def countOcc (tl ql : List Char) : Nat :=
  ((List.range tl.length).filter (fun i => ql.isPrefixOf (tl.drop i))).length

/-- Total hit count of a query across the document (case-insensitive). -/
def totalSearchHits (doc : Document) (query : List Char) : Nat :=
  (doc.pages.map (fun p => countOcc (lowerStr p.text) (lowerStr query))).sum

/-- The canonical per-page breakdown: `(1-based page, hit count)` for every
page with at least one hit, ascending. -/
def searchBreakdown (doc : Document) (query : List Char) : List (Nat × Nat) :=
  doc.pages.enum.filterMap (fun pe =>
    let c := countOcc (lowerStr pe.2.text) (lowerStr query)
    if c = 0 then none else some (pe.1 + 1, c))


/-! ### Concrete documents used by the witnesses and counterexamples -/

/-- The line text `"1 Introduction"`. -/
def introTitle : List Char := ['1', ' ', 'I', 'n', 't', 'r', 'o', 'd', 'u', 'c', 't', 'i', 'o', 'n']

/-- A page whose only line is `"1 Introduction"` at font size 10 (median size
10, so the numbered-pattern promotion fires). -/
def exPageC1 : PageData := ⟨[], [⟨0, [⟨[⟨introTitle, 10, 0⟩]⟩]⟩], []⟩

/-- A document whose native outline has exactly one entry, titled only with a
space, over a page that heuristic detection turns into a heading. -/
def exDocC1 : Document := ⟨[exPageC1], [⟨1, [' '], 1⟩]⟩

/-- Two TOC entries sharing page 2 at the same level. -/
def cTocC3 : List TocEntry := [⟨['a'], 2, 1⟩, ⟨['b'], 2, 1⟩]

/-- A well-formed TOC: strictly increasing pages inside a 5-page document. -/
def exTocC3 : List TocEntry :=
  [⟨['a', 'l', 'p', 'h', 'a'], 1, 1⟩, ⟨['b', 'e', 't', 'a'], 3, 1⟩]

/-- The TOC of the claim's exact-match example. -/
def exTocC2 : List TocEntry :=
  [⟨['I', 'n', 't', 'r', 'o'], 1, 1⟩,
   ⟨['I', 'n', 't', 'r', 'o', 'd', 'u', 'c', 't', 'i', 'o', 'n', ' ', 't', 'o', ' ', 'X'], 2, 1⟩]

/-- A TOC with a level-2 entry between two level-1 entries. -/
def exTocC4 : List TocEntry :=
  [⟨['a'], 1, 1⟩, ⟨['b'], 2, 2⟩, ⟨['c'], 3, 1⟩]

/-- A 15-page document whose pages each hold the two characters `ab`. -/
def ex15 : Document := ⟨List.replicate 15 ⟨['a', 'b'], [], []⟩, []⟩

/-- A 20-page empty-text document with native sections at pages 1 and 17 (the
first section spans 16 pages). -/
def exDoc20 : Document :=
  ⟨List.replicate 20 ⟨[], [], []⟩,
    [⟨1, ['A', 'l', 'p', 'h', 'a'], 1⟩, ⟨1, ['B', 'e', 't', 'a'], 17⟩]⟩

/-- A 20-page empty-text document with native sections at pages 1 and 16 (the
first section spans exactly 15 pages). -/
def exDoc15s : Document :=
  ⟨List.replicate 20 ⟨[], [], []⟩,
    [⟨1, ['A', 'l', 'p', 'h', 'a'], 1⟩, ⟨1, ['B', 'e', 't', 'a'], 16⟩]⟩

/-- A two-page document: `xxxxx` on page 1 and `xxx` on page 2. -/
def exDocS : Document :=
  ⟨[⟨['x', 'x', 'x', 'x', 'x'], [], []⟩, ⟨['x', 'x', 'x'], [], []⟩], []⟩

/-- The two snippets materialised by the search example: both hits on page 1,
full page window, no clipping. -/
def exSn : List Snippet :=
  [⟨1, ['x', 'x', 'x', 'x', 'x'], false, false⟩, ⟨1, ['x', 'x', 'x', 'x', 'x'], false, false⟩]

/-- An embedded PNG image of the given dimensions with one byte of data. -/
def exImg (w h : Int) : PageImage := ⟨some ⟨w, h, ['p', 'n', 'g'], ['x']⟩⟩

/-- A one-page document with three embedded images sized 10×10, 60×60 and
200×100. -/
def exDocI : Document := ⟨[⟨[], [], [exImg 10 10, exImg 60 60, exImg 200 100]⟩], []⟩


/-! ### Helper lemmas -/

/-- The length of a Python integer range. -/
theorem intRange_length (a b : Int) : (intRange a b).length = (b - a).toNat := by
  rw [intRange, List.length_map, List.length_range]

/-- The number of page blocks a slice emits. -/
theorem readSlice_length (doc : Document) (a b : Int) :
    (readSlice doc a b).length = (b - a).toNat := by
  rw [readSlice, List.length_map, intRange_length]

/-- Every emitted page block lies in the requested range and carries the
trimmed text of its page. -/
theorem readSlice_mem (doc : Document) (a b : Int) (pr : Int × List Char)
    (h : pr ∈ readSlice doc a b) :
    a + 1 ≤ pr.1 ∧ pr.1 ≤ b ∧ pr.2 = stripStr (pageTextAt doc (pr.1 - 1)) := by
  rw [readSlice, List.mem_map] at h
  obtain ⟨i, hi, rfl⟩ := h
  rw [intRange, List.mem_map] at hi
  obtain ⟨k, hk, rfl⟩ := hi
  rw [List.mem_range] at hk
  refine ⟨?_, ?_, ?_⟩
  · show a + 1 ≤ a + (k : Int) + 1
    omega
  · show a + (k : Int) + 1 ≤ b
    omega
  · show stripStr (pageTextAt doc (a + (k : Int))) =
      stripStr (pageTextAt doc (a + (k : Int) + 1 - 1))
    have harg : a + (k : Int) + 1 - 1 = a + (k : Int) := by ring
    rw [harg]

/-- The median of the one-line example document's font sizes. -/
theorem median_exDocC1 : median (fontSizes exDocC1) = 10 := by
  norm_num [median, fontSizes, exDocC1, exPageC1, blockSizes, sortQ, insertQ]

/-- Heuristic detection on the example document finds exactly the numbered
heading, at page 1, level 1. -/
theorem detect_exDocC1 : detect_headings exDocC1 = [⟨introTitle, 1, 1⟩] := by
  have hn : numberedHeadingMatch introTitle = true := by decide
  have h1 : ¬ ((10 : ℚ) * (5 / 4) ≤ 10) := by norm_num
  simp only [detect_headings]
  rw [median_exDocC1]
  norm_num [exDocC1, exPageC1, spansInfo, pageLineInfos, blockLineInfos, lineText,
    lineMaxSize, lineBold, List.filterMap, headingOf, classifyLevel, hn, h1]
  decide

/-! ### C1 — `get_toc` fallback policy (corrected)

The claim says a native outline that is present but entirely filtered away
delegates to `HeadingDetector`.  The code only delegates when the raw outline
list is empty: a non-empty outline whose titles all trim to nothing yields the
empty TOC. -/

/-- C1 counterexample: `exDocC1` has a non-empty native outline whose only
title strips to empty, heuristic detection would find a heading, and yet
`get_toc` does not return the heuristic result. -/
theorem C1_native_filtered_counterexample :
    exDocC1.nativeToc ≠ [] ∧ (∀ en ∈ exDocC1.nativeToc, stripStr en.title = []) ∧
    get_toc exDocC1 ≠ detect_headings exDocC1 := by
  refine ⟨by decide, by decide, ?_⟩
  rw [detect_exDocC1]
  decide

/-- C1 (amended): `get_toc` delegates to heuristic detection exactly when the
native outline is absent (the empty list); when the native outline is present
but every title is empty after trimming, `get_toc` returns the empty outline
instead. -/
theorem C1_get_toc_fallback_amended :
    (∀ doc : Document, doc.nativeToc = [] → get_toc doc = detect_headings doc) ∧
    (∀ doc : Document, doc.nativeToc ≠ [] →
      (∀ en ∈ doc.nativeToc, stripStr en.title = []) → get_toc doc = []) := by
  constructor
  · intro doc h
    simp [get_toc, h]
  · intro doc h hall
    simp only [get_toc, if_neg h]
    rw [List.filterMap_eq_nil_iff]
    intro en hen
    simp [hall en hen]

/-- C1 witness: the amended theorem applied to `exDocC1`. -/
theorem C1_get_toc_fallback_witness : get_toc exDocC1 = [] :=
  C1_get_toc_fallback_amended.2 exDocC1 (by decide) (by decide)

/-! ### C3 — SectionRange invariant (corrected)

Two entries sharing a page produce an empty range `end = start`, so the
invariant `end > start` does not hold for every TOC; it does hold whenever the
TOC pages are strictly increasing and within bounds. -/

/-- C3 counterexample: on a TOC whose two level-1 entries share page 2, the
returned range is `(1, 1)` — `end > start` fails. -/
theorem C3_range_invariant_counterexample :
    find_section_pages cTocC3 ['a'] 5 = some (1, 1) ∧ ¬ ((1 : Int) < 1) :=
  ⟨by decide, by decide⟩

/-! ### C5 — `pdf_read_pages` validation, clamping and 10-page cap
(confirmed) -/

/-- C5: `pdf_read_pages` fails exactly when `start` is out of `1..total`;
otherwise it fails exactly when the (defaulted) end is below `start`; in the
successful case the end is clamped to `total` and then capped to `start + 9`,
the page count never exceeds 10, and the header reports the pages actually
returned, their count, and the total character count of the returned trimmed
page texts. -/
theorem C5_read_pages_spec :
    ∀ (doc : Document) (s e total e0 : Int),
      total = (doc.pages.length : Int) →
      e0 = (if e ≤ 0 then s else e) →
      (pdf_read_pages doc s e = .errStart s total ↔ s < 1 ∨ total < s) ∧
      (pdf_read_pages doc s e = .errEnd e0 s ↔ 1 ≤ s ∧ s ≤ total ∧ e0 < s) ∧
      (1 ≤ s → s ≤ total → s ≤ e0 →
        pdf_read_pages doc s e =
          .ok s (min (min e0 total) (s + 9)) (min (min e0 total) (s + 9) - s + 1)
            (sliceChars (readSlice doc (s - 1) (min (min e0 total) (s + 9))))
            (readSlice doc (s - 1) (min (min e0 total) (s + 9))) ∧
        min (min e0 total) (s + 9) - s + 1 ≤ 10 ∧
        (readSlice doc (s - 1) (min (min e0 total) (s + 9))).length =
          (min (min e0 total) (s + 9) - s + 1).toNat ∧
        (∀ pr ∈ readSlice doc (s - 1) (min (min e0 total) (s + 9)),
          s ≤ pr.1 ∧ pr.1 ≤ min (min e0 total) (s + 9) ∧
          pr.2 = stripStr (pageTextAt doc (pr.1 - 1)))) := by
  intro doc s e total e0 htot he0
  have hread : pdf_read_pages doc s e =
      (if s < 1 ∨ total < s then ReadResult.errStart s total
       else if e0 < s then ReadResult.errEnd e0 s
       else
        ReadResult.ok s (min (min e0 total) (s + 9)) (min (min e0 total) (s + 9) - s + 1)
          (sliceChars (readSlice doc (s - 1) (min (min e0 total) (s + 9))))
          (readSlice doc (s - 1) (min (min e0 total) (s + 9)))) := by
    simp only [pdf_read_pages]
    rw [← htot, ← he0]
    by_cases h1 : s < 1 ∨ total < s
    · rw [if_pos h1, if_pos h1]
    · rw [if_neg h1, if_neg h1]
      by_cases h2 : e0 < s
      · rw [if_pos h2, if_pos h2]
      · rw [if_neg h2, if_neg h2]
        have hmin1 : (if total < e0 then total else e0) = min e0 total := by
          split_ifs <;> omega
        rw [hmin1]
        have hmin2 : (if 10 < min e0 total - s + 1 then s + 9 else min e0 total) =
            min (min e0 total) (s + 9) := by
          split_ifs <;> omega
        have hpc : (if 10 < min e0 total - s + 1 then (10 : Int) else min e0 total - s + 1) =
            min (min e0 total) (s + 9) - s + 1 := by
          split_ifs <;> omega
        rw [hmin2, hpc]
  rw [hread]
  by_cases h1 : s < 1 ∨ total < s
  · rw [if_pos h1]
    refine ⟨by simp [h1], ?_, ?_⟩
    · simp only [reduceCtorEq, false_iff]
      omega
    · intro hs1 hs2 _
      exact absurd h1 (by omega)
  · rw [if_neg h1]
    by_cases h2 : e0 < s
    · rw [if_pos h2]
      refine ⟨by simp [h1], ?_, ?_⟩
      · simp only [ReadResult.errEnd.injEq, true_iff, and_self_iff]
        omega
      · intro _ _ hse
        omega
    · rw [if_neg h2]
      refine ⟨by simp [h1], ?_, ?_⟩
      · simp only [reduceCtorEq, false_iff]
        omega
      · intro _ _ _
        refine ⟨rfl, by omega, ?_, ?_⟩
        · rw [readSlice_length]
          congr 1
          omega
        · intro pr hpr
          have h3 := readSlice_mem doc (s - 1) (min (min e0 total) (s + 9)) pr hpr
          exact ⟨by omega, h3.2.1, h3.2.2⟩

/-- C5 witness: reading pages 3–20 of a 15-page document returns pages 3–12,
10 pages, 20 characters. -/
theorem C5_read_pages_witness :
    pdf_read_pages ex15 3 20 = ReadResult.ok 3 12 10 20 (readSlice ex15 2 12) := by
  have h := (C5_read_pages_spec ex15 3 20 15 20 (by decide) (by decide)).2.2
    (by decide) (by decide) (by decide)
  rw [h.1]
  decide


/-! ### C6 — `pdf_read_section` 15-page cap and truncation flag (corrected)

The code flags truncation whenever the final page count equals 15, so a
section of exactly 15 pages is returned in full yet still flagged: the notice
appears iff the resolved span is at least 15 pages, not strictly more. -/

/-- C6 counterexample: on `exDoc15s` the query resolves to the exact 15-page
range `(0, 15)` — the cap is not hit — and the truncation flag is still set. -/
theorem C6_truncation_counterexample :
    find_section_pages (get_toc exDoc15s) ['a', 'l', 'p', 'h', 'a'] 20 = some (0, 15) ∧
    sectionTrunc (pdf_read_section exDoc15s ['a', 'l', 'p', 'h', 'a']) = some true :=
  ⟨by decide, by decide⟩

/-- C6 (amended): `pdf_read_section` caps the resolved range to at most 15
pages, and the truncation notice appears iff the resolved section spanned at
least 15 pages — a section of exactly 15 pages is returned in full but still
flagged. -/
theorem C6_truncation_amended :
    ∀ (doc : Document) (q : List Char) (s0 e0 : Int),
      get_toc doc ≠ [] →
      find_section_pages (get_toc doc) q (doc.pages.length : Int) = some (s0, e0) →
      pdf_read_section doc q =
        .ok ((((get_toc doc).find? (fun en => decide (en.page - 1 = s0))).map
              TocEntry.title).getD q)
          s0 (min e0 (s0 + 15)) (min (e0 - s0) 15)
          (sliceChars (readSlice doc s0 (min e0 (s0 + 15))))
          (decide (15 ≤ e0 - s0))
          (readSlice doc s0 (min e0 (s0 + 15))) := by
  intro doc q s0 e0 htoc hfind
  simp only [pdf_read_section, if_neg htoc, hfind]
  have hmin1 : (if 15 < e0 - s0 then s0 + 15 else e0) = min e0 (s0 + 15) := by
    split_ifs <;> omega
  have hmin2 : (if 15 < e0 - s0 then (15 : Int) else e0 - s0) = min (e0 - s0) 15 := by
    split_ifs <;> omega
  have htr : decide (min (e0 - s0) 15 = 15) = decide (15 ≤ e0 - s0) := by
    rcases le_or_lt 15 (e0 - s0) with h | h
    · rw [decide_eq_decide]
      omega
    · rw [decide_eq_decide]
      omega
  rw [hmin1, hmin2, htr]

/-- C6 witness: on `exDoc20` the first section resolves to the 16-page span
`(0, 16)`, is returned capped at 15 pages, and is flagged as truncated. -/
theorem C6_truncation_witness :
    pdf_read_section exDoc20 ['a', 'l', 'p', 'h', 'a'] =
      SectionResult.ok ['A', 'l', 'p', 'h', 'a'] 0 15 15 0 true
        (readSlice exDoc20 0 15) := by
  have h := C6_truncation_amended exDoc20 ['a', 'l', 'p', 'h', 'a'] 0 16
    (by decide) (by decide)
  rw [h]
  decide


/-! ### Scan lemmas for `find_section_pages` -/

/-- The scan loop stops at the first exact match, whatever it has accumulated
so far: prior partial-match scores never override an exact match. -/
theorem scan_first_exact (q qns : List Char) (l : List TocEntry) :
    ∀ (n i : Nat) (e : TocEntry) (bi : Int) (bs : ℚ),
      l[i]? = some e → exactMatch q qns e →
      (∀ (j : Nat) (ej : TocEntry), j < i → l[j]? = some ej → ¬ exactMatch q qns ej) →
      scanToc q qns (l.enumFrom n) bi bs = ((n + i : Nat) : Int) := by
  induction l with
  | nil =>
    intro n i e bi bs hget
    simp at hget
  | cons t ts ih =>
    intro n i e bi bs hget hex hfirst
    rw [List.enumFrom_cons]
    cases i with
    | zero =>
      rw [List.getElem?_cons_zero, Option.some_inj] at hget
      subst hget
      simp only [scanToc]
      rw [if_pos (show q = tocNorm t.title ∨ qns = removeWs (tocNorm t.title) from hex)]
      simp
    | succ i' =>
      have hne : ¬ exactMatch q qns t :=
        hfirst 0 t (Nat.succ_pos i') List.getElem?_cons_zero
      rw [List.getElem?_cons_succ] at hget
      have hfirst' : ∀ (j : Nat) (ej : TocEntry), j < i' → ts[j]? = some ej →
          ¬ exactMatch q qns ej := by
        intro j ej hj hjget
        exact hfirst (j + 1) ej (by omega) (by rw [List.getElem?_cons_succ]; exact hjget)
      have harith : (((n + 1) + i' : Nat) : Int) = ((n + (i' + 1) : Nat) : Int) := by
        congr 1
        omega
      simp only [scanToc]
      rw [if_neg (show ¬ (q = tocNorm t.title ∨ qns = removeWs (tocNorm t.title)) from hne)]
      split_ifs <;> rw [ih (n + 1) i' e _ _ hget hex hfirst'] <;> exact harith

/-- The scan loop returns its accumulator or the index of some visited
entry. -/
theorem scanToc_mem (q qns : List Char) (l : List (Nat × TocEntry)) :
    ∀ (bi : Int) (bs : ℚ),
      scanToc q qns l bi bs = bi ∨ ∃ p ∈ l, scanToc q qns l bi bs = (p.1 : Int) := by
  induction l with
  | nil =>
    intro bi bs
    left
    rfl
  | cons t ts ih =>
    intro bi bs
    obtain ⟨i, e⟩ := t
    simp only [scanToc]
    split_ifs with h1 h2 h3 h4 h5
    · right
      exact ⟨(i, e), List.mem_cons_self _ _, rfl⟩
    · rcases ih (i : Int) _ with h | ⟨p, hp, hval⟩
      · right
        exact ⟨(i, e), List.mem_cons_self _ _, h⟩
      · right
        exact ⟨p, List.mem_cons_of_mem _ hp, hval⟩
    · rcases ih bi bs with h | ⟨p, hp, hval⟩
      · left
        exact h
      · right
        exact ⟨p, List.mem_cons_of_mem _ hp, hval⟩
    · rcases ih bi bs with h | ⟨p, hp, hval⟩
      · left
        exact h
      · right
        exact ⟨p, List.mem_cons_of_mem _ hp, hval⟩
    · rcases ih (i : Int) _ with h | ⟨p, hp, hval⟩
      · right
        exact ⟨(i, e), List.mem_cons_self _ _, h⟩
      · right
        exact ⟨p, List.mem_cons_of_mem _ hp, hval⟩
    · rcases ih bi bs with h | ⟨p, hp, hval⟩
      · left
        exact h
      · right
        exact ⟨p, List.mem_cons_of_mem _ hp, hval⟩

/-- Characterisation of the end-page loop: either no later entry has level at
most the matched level and the end is `total_pages`, or the end comes from
the first such entry. -/
theorem nextEnd_spec (l : List TocEntry) :
    ∀ (lvl total : Int),
      (nextEnd l lvl total = total ∧ ∀ x ∈ l, lvl < x.level) ∨
      (∃ (j : Nat) (x : TocEntry), l[j]? = some x ∧ x.level ≤ lvl ∧
        (∀ (k : Nat) (y : TocEntry), k < j → l[k]? = some y → lvl < y.level) ∧
        nextEnd l lvl total = x.page - 1) := by
  induction l with
  | nil =>
    intro lvl total
    left
    exact ⟨rfl, by simp⟩
  | cons t ts ih =>
    intro lvl total
    by_cases h : t.level ≤ lvl
    · right
      refine ⟨0, t, List.getElem?_cons_zero, h, ?_, ?_⟩
      · intro k y hk
        omega
      · simp only [nextEnd]
        rw [if_pos h]
    · rcases ih lvl total with ⟨hval, hall⟩ | ⟨j, x, hget, hx, hfirst, hval⟩
      · left
        refine ⟨?_, ?_⟩
        · simp only [nextEnd]
          rw [if_neg h]
          exact hval
        · intro x hx
          rcases List.mem_cons.mp hx with rfl | hx'
          · omega
          · exact hall x hx'
      · right
        refine ⟨j + 1, x, by rw [List.getElem?_cons_succ]; exact hget, hx, ?_, ?_⟩
        · intro k y hk hkget
          cases k with
          | zero =>
            rw [List.getElem?_cons_zero, Option.some_inj] at hkget
            subst hkget
            omega
          | succ k' =>
            rw [List.getElem?_cons_succ] at hkget
            exact hfirst k' y (by omega) hkget
        · simp only [nextEnd]
          rw [if_neg h]
          exact hval

/-- Shape of every successful `find_section_pages` call: the start page comes
from a matched entry at some index, the end from the `nextEnd` scan after
it. -/
theorem find_section_shape (toc : List TocEntry) (q : List Char) (total s e : Int)
    (h : find_section_pages toc q total = some (s, e)) :
    ∃ (i : Nat) (ei : TocEntry), toc[i]? = some ei ∧ s = ei.page - 1 ∧
      e = nextEnd (toc.drop (i + 1)) ei.level total := by
  simp only [find_section_pages] at h
  rcases scanToc_mem (tocNorm q) (removeWs (tocNorm q)) toc.enum (-1) 0 with hval | ⟨p, hp, hval⟩
  · rw [hval, if_pos (by omega : (-1 : Int) < 0)] at h
    exact Option.noConfusion h
  · rw [hval, if_neg (by omega : ¬ ((p.1 : Int) < 0))] at h
    obtain ⟨hple, hplt, hpe⟩ := List.mem_enumFrom hp
    have hget : toc[p.1]? = some p.2 := by
      rw [List.getElem?_eq_some]
      refine ⟨by omega, ?_⟩
      rw [hpe]
      congr 1
    rw [Option.some_inj, Prod.mk.injEq] at h
    obtain ⟨hs, he⟩ := h
    have hgetD : toc.getD ((p.1 : Int)).toNat ⟨[], 0, 0⟩ = p.2 := by
      simp only [Int.toNat_natCast]
      rw [List.getD_eq_getElem?_getD, hget]
      rfl
    refine ⟨p.1, p.2, hget, ?_, ?_⟩
    · rw [← hs, hgetD]
    · rw [← he, hgetD]
      simp


/-! ### C2 — exact match wins immediately (confirmed) -/

/-- C2: if entry `i` is the first whose normalised title equals the
normalised query (case-insensitive equality, or equality after whitespace
removal), `find_section_pages` returns that entry's range — the scan stops
there, so no later entry (whatever its substring or word-overlap score) can
be chosen. -/
theorem C2_exact_match_short_circuit (toc : List TocEntry) (q : List Char) (total : Int)
    (i : Nat) (e : TocEntry)
    (hget : toc[i]? = some e)
    (hex : exactMatch (tocNorm q) (removeWs (tocNorm q)) e)
    (hfirst : ∀ (j : Nat) (ej : TocEntry), j < i → toc[j]? = some ej →
      ¬ exactMatch (tocNorm q) (removeWs (tocNorm q)) ej) :
    find_section_pages toc q total =
      some (e.page - 1, nextEnd (toc.drop (i + 1)) e.level total) := by
  simp only [find_section_pages]
  have hscan := scan_first_exact (tocNorm q) (removeWs (tocNorm q)) toc 0 i e (-1) 0
    hget hex hfirst
  rw [show toc.enum = toc.enumFrom 0 from rfl, hscan,
    if_neg (by omega : ¬ (((0 + i : Nat) : Int) < 0))]
  have hgetD : toc.getD (((0 + i : Nat) : Int)).toNat ⟨[], 0, 0⟩ = e := by
    simp only [Int.toNat_natCast, Nat.zero_add]
    rw [List.getD_eq_getElem?_getD, hget]
    rfl
  rw [hgetD]
  simp

/-- C2 witness: the claim's own example — `"intro"` matches the `"Intro"`
entry on page 1 exactly, not the longer `"Introduction to X"` entry. -/
theorem C2_exact_match_witness :
    find_section_pages exTocC2 ['i', 'n', 't', 'r', 'o'] 10 = some (0, 1) := by
  have h := C2_exact_match_short_circuit exTocC2 ['i', 'n', 't', 'r', 'o'] 10 0
    ⟨['I', 'n', 't', 'r', 'o'], 1, 1⟩ (by decide) (by decide)
    (by intro j ej hj _; exact absurd hj (by omega))
  rw [h]
  decide

/-! ### C4 — section end is the first later sibling-or-higher entry
(confirmed) -/

/-- C4: every successful range has its start from a matched entry `i`, and
its end is either the page (minus one) of the first later entry whose level
is at most the matched level, or `total_pages` if no such entry exists. -/
theorem C4_section_end_next_sibling (toc : List TocEntry) (q : List Char)
    (total s e : Int)
    (h : find_section_pages toc q total = some (s, e)) :
    ∃ (i : Nat) (ei : TocEntry), toc[i]? = some ei ∧ s = ei.page - 1 ∧
      ((∃ (j : Nat) (ej : TocEntry), i < j ∧ toc[j]? = some ej ∧ ej.level ≤ ei.level ∧
          e = ej.page - 1 ∧
          (∀ (k : Nat) (ek : TocEntry), i < k → k < j → toc[k]? = some ek →
            ei.level < ek.level)) ∨
        (e = total ∧ ∀ (k : Nat) (ek : TocEntry), i < k → toc[k]? = some ek →
          ei.level < ek.level)) := by
  obtain ⟨i, ei, hget, hs, he⟩ := find_section_shape toc q total s e h
  refine ⟨i, ei, hget, hs, ?_⟩
  rcases nextEnd_spec (toc.drop (i + 1)) ei.level total with ⟨hval, hall⟩ |
    ⟨j, x, hjget, hx, hfirst, hval⟩
  · right
    refine ⟨he.trans hval, ?_⟩
    intro k ek hik hkget
    have hdget : (toc.drop (i + 1))[k - (i + 1)]? = some ek := by
      rw [List.getElem?_drop]
      have harg : i + 1 + (k - (i + 1)) = k := by omega
      rw [harg]
      exact hkget
    exact hall ek (List.getElem?_mem hdget)
  · left
    refine ⟨i + 1 + j, x, by omega, ?_, hx, he.trans hval, ?_⟩
    · rw [← List.getElem?_drop]
      exact hjget
    · intro k ek hik hkj hkget
      apply hfirst (k - (i + 1)) ek (by omega)
      rw [List.getElem?_drop]
      have harg : i + 1 + (k - (i + 1)) = k := by omega
      rw [harg]
      exact hkget

/-- C4 witness: on a TOC `a(p1,l1), b(p2,l2), c(p3,l1)` the query `a`
resolves to `(0, 2)` — the end page 2 is page 3 of `c` (the first later
level-≤-1 entry) minus one, skipping the level-2 entry `b`. -/
theorem C4_section_end_witness :
    ∃ (i : Nat) (ei : TocEntry), exTocC4[i]? = some ei ∧ (0 : Int) = ei.page - 1 ∧
      ((∃ (j : Nat) (ej : TocEntry), i < j ∧ exTocC4[j]? = some ej ∧ ej.level ≤ ei.level ∧
          (2 : Int) = ej.page - 1 ∧
          (∀ (k : Nat) (ek : TocEntry), i < k → k < j → exTocC4[k]? = some ek →
            ei.level < ek.level)) ∨
        ((2 : Int) = 9 ∧ ∀ (k : Nat) (ek : TocEntry), i < k → exTocC4[k]? = some ek →
          ei.level < ek.level)) :=
  C4_section_end_next_sibling exTocC4 ['a'] 9 0 2 (by decide)

/-! ### C3 (amended theorem and witness) -/

/-- C3 (amended): over a TOC whose pages are strictly increasing and lie in
`[1, total_pages]`, every returned range satisfies `end > start` and
`end ≤ total_pages`; the counterexample above shows the unrestricted claim
fails. -/
theorem C3_range_invariant_amended (toc : List TocEntry) (q : List Char)
    (total s e : Int)
    (hpw : List.Pairwise (fun a b => a.page < b.page) toc)
    (hbounds : ∀ en ∈ toc, 1 ≤ en.page ∧ en.page ≤ total)
    (h : find_section_pages toc q total = some (s, e)) :
    s < e ∧ e ≤ total := by
  obtain ⟨i, ei, hget, hs, he⟩ := find_section_shape toc q total s e h
  have hmem : ei ∈ toc := List.getElem?_mem hget
  have hbi := hbounds ei hmem
  rcases nextEnd_spec (toc.drop (i + 1)) ei.level total with ⟨hval, _⟩ |
    ⟨j, x, hjget, _, _, hval⟩
  · subst hs
    rw [he, hval]
    omega
  · have hxget : toc[i + 1 + j]? = some x := by
      rw [← List.getElem?_drop]
      exact hjget
    have hxmem : x ∈ toc := List.getElem?_mem hxget
    have hbx := hbounds x hxmem
    have hlt : ei.page < x.page := by
      rw [List.pairwise_iff_getElem] at hpw
      obtain ⟨hi, hei⟩ := List.getElem?_eq_some.mp hget
      obtain ⟨hj2, hx2⟩ := List.getElem?_eq_some.mp hxget
      have hp := hpw i (i + 1 + j) hi hj2 (by omega)
      rw [hei, hx2] at hp
      exact hp
    subst hs
    rw [he, hval]
    omega

/-- C3 witness: the amended invariant applied to a strictly increasing TOC in
a 5-page document. -/
theorem C3_range_invariant_witness :
    find_section_pages exTocC3 ['a', 'l', 'p', 'h', 'a'] 5 = some (0, 2) ∧
    (0 : Int) < 2 ∧ (2 : Int) ≤ 5 :=
  ⟨by decide,
   C3_range_invariant_amended exTocC3 ['a', 'l', 'p', 'h', 'a'] 5 0 2
     (by decide) (by decide) (by decide)⟩


/-! ### Heading-detector lemmas -/

/-- A list all of whose member pairs satisfy `R` is pairwise `R`. -/
theorem pairwise_of_forall_mem_pairs {α : Type} {R : α → α → Prop} :
    ∀ (l : List α), (∀ a ∈ l, ∀ b ∈ l, R a b) → l.Pairwise R := by
  intro l
  induction l with
  | nil =>
    intro _
    exact List.Pairwise.nil
  | cons a t ih =>
    intro hall
    rw [List.pairwise_cons]
    refine ⟨?_, ?_⟩
    · intro b hb
      exact hall a (List.mem_cons_self a t) b (List.mem_cons_of_mem a hb)
    · exact ih (fun x hx y hy =>
        hall x (List.mem_cons_of_mem a hx) y (List.mem_cons_of_mem a hy))

/-- `filterMap` preserves pairwiseness along the function. -/
theorem pairwise_filterMap_of_pairwise {α β : Type} {S : α → α → Prop} {R : β → β → Prop}
    (f : α → Option β) :
    ∀ (l : List α), l.Pairwise S →
      (∀ a b x y, S a b → f a = some x → f b = some y → R x y) →
      (l.filterMap f).Pairwise R := by
  intro l
  induction l with
  | nil =>
    intro _ _
    exact List.Pairwise.nil
  | cons a t ih =>
    intro hpw himp
    rw [List.pairwise_cons] at hpw
    rw [List.filterMap_cons]
    cases hfa : f a with
    | none => exact ih hpw.2 himp
    | some x =>
      rw [List.pairwise_cons]
      refine ⟨?_, ih hpw.2 himp⟩
      intro y hy
      obtain ⟨b, hb, hfb⟩ := List.mem_filterMap.mp hy
      exact himp a b x y (hpw.1 b hb) hfa hfb

/-- Every `spans_info` record of a block carries the block's page index and a
line of that block. -/
theorem blockLineInfos_mem (pidx : Nat) (b : Block) (info : LineInfo)
    (h : info ∈ blockLineInfos pidx b) :
    info.page = pidx ∧ b.btype = 0 ∧
      ∃ l ∈ b.lines, stripStr (lineText l) = info.text := by
  rw [blockLineInfos] at h
  by_cases hb : b.btype = 0
  · rw [if_pos hb] at h
    obtain ⟨l, hl, hfl⟩ := List.mem_filterMap.mp h
    by_cases ht : stripStr (lineText l) = []
    · rw [if_pos ht] at hfl
      exact Option.noConfusion hfl
    · rw [if_neg ht, Option.some_inj] at hfl
      subst hfl
      exact ⟨rfl, hb, l, hl, rfl⟩
  · rw [if_neg hb] at h
    exact absurd h (List.not_mem_nil info)

/-- Every `spans_info` record of a page carries the page index and one of the
page's lines. -/
theorem pageLineInfos_mem (pidx : Nat) (p : PageData) (info : LineInfo)
    (h : info ∈ pageLineInfos pidx p) :
    info.page = pidx ∧ lineOccursOn p info.text := by
  rw [pageLineInfos] at h
  obtain ⟨b, hb, hbin⟩ := List.mem_flatMap.mp h
  obtain ⟨hpage, hbt, l, hl, hlt⟩ := blockLineInfos_mem pidx b info hbin
  exact ⟨hpage, b, hb, hbt, l, hl, hlt⟩

/-- Over the enumerated page list starting at `n`, all produced records have
page index at least `n` and the page indices are non-decreasing. -/
theorem enumFrom_lineInfos_mono (ps : List PageData) :
    ∀ (n : Nat),
      (∀ info ∈ (List.enumFrom n ps).flatMap (fun pe => pageLineInfos pe.1 pe.2),
        n ≤ info.page) ∧
      List.Pairwise (fun a b : LineInfo => a.page ≤ b.page)
        ((List.enumFrom n ps).flatMap (fun pe => pageLineInfos pe.1 pe.2)) := by
  induction ps with
  | nil =>
    intro n
    exact ⟨by simp, by simp⟩
  | cons p ps ih =>
    intro n
    rw [List.enumFrom_cons, List.flatMap_cons]
    constructor
    · intro info hinfo
      rcases List.mem_append.mp hinfo with hfst | hrst
      · rw [(pageLineInfos_mem n p info hfst).1]
      · exact le_trans (by omega) ((ih (n + 1)).1 info hrst)
    · rw [List.pairwise_append]
      refine ⟨?_, (ih (n + 1)).2, ?_⟩
      · apply pairwise_of_forall_mem_pairs
        intro a ha b hb
        rw [(pageLineInfos_mem n p a ha).1, (pageLineInfos_mem n p b hb).1]
      · intro a ha b hb
        rw [(pageLineInfos_mem n p a ha).1]
        exact le_trans (by omega) ((ih (n + 1)).1 b hb)

/-- Every `spans_info` record points back to an actual page of the document
holding its line. -/
theorem spansInfo_mem (doc : Document) (info : LineInfo) (h : info ∈ spansInfo doc) :
    ∃ pd, doc.pages[info.page]? = some pd ∧ lineOccursOn pd info.text := by
  rw [spansInfo] at h
  obtain ⟨pe, hpe, hin⟩ := List.mem_flatMap.mp h
  obtain ⟨hpage, hline⟩ := pageLineInfos_mem pe.1 pe.2 info hin
  obtain ⟨_, hlt, hpe2⟩ := List.mem_enumFrom hpe
  refine ⟨pe.2, ?_, hline⟩
  rw [hpage, List.getElem?_eq_some]
  refine ⟨by omega, ?_⟩
  simp [hpe2]

/-- The classification chain only ever assigns level 1 or level 2. -/
theorem classifyLevel_level (m : ℚ) (info : LineInfo) (lvl : Int)
    (h : classifyLevel m info = some lvl) : lvl = 1 ∨ lvl = 2 := by
  rw [classifyLevel] at h
  split_ifs at h <;> rw [Option.some_inj] at h <;> omega

/-- What a successful `headingOf` yields: title and page are copied from the
record, the level from the classification, and the length filter passed. -/
theorem headingOf_some (m : ℚ) (info : LineInfo) (h : TocEntry)
    (hf : headingOf m info = some h) :
    h.title = info.text ∧ h.page = (info.page : Int) + 1 ∧
      2 ≤ info.text.length ∧ info.text.length ≤ 120 ∧
      classifyLevel m info = some h.level := by
  rw [headingOf] at hf
  by_cases hlen : 120 < info.text.length ∨ info.text.length < 2
  · rw [if_pos hlen] at hf
    exact absurd hf (by simp)
  · rw [if_neg hlen] at hf
    obtain ⟨lvl, hcl, hgl⟩ := Option.map_eq_some'.mp hf
    subst hgl
    exact ⟨rfl, rfl, by omega, by omega, hcl⟩

/-! ### C8 — heuristic outline invariants (confirmed) -/

/-- C8: every entry emitted by `detect_headings` has a title of 2–120
characters, level 1 or 2, and the 1-based page of an actual line of the
document; and the emitted pages are non-decreasing in emission order. -/
theorem C8_detect_headings_invariants (doc : Document) :
    (∀ h ∈ detect_headings doc,
      2 ≤ h.title.length ∧ h.title.length ≤ 120 ∧ (h.level = 1 ∨ h.level = 2) ∧
      ∃ (p : Nat) (pd : PageData), doc.pages[p]? = some pd ∧ h.page = (p : Int) + 1 ∧
        lineOccursOn pd h.title) ∧
    List.Pairwise (fun a b : TocEntry => a.page ≤ b.page) (detect_headings doc) := by
  constructor
  · intro h hmem
    rw [detect_headings] at hmem
    by_cases hfs : fontSizes doc = []
    · rw [if_pos hfs] at hmem
      exact absurd hmem (List.not_mem_nil h)
    · rw [if_neg hfs] at hmem
      obtain ⟨info, hinfo, hf⟩ := List.mem_filterMap.mp hmem
      obtain ⟨htitle, hpage, hlo, hhi, hcl⟩ :=
        headingOf_some (median (fontSizes doc)) info h hf
      obtain ⟨pd, hpd, hline⟩ := spansInfo_mem doc info hinfo
      refine ⟨by rw [htitle]; omega, by rw [htitle]; omega,
        classifyLevel_level _ info h.level hcl, info.page, pd, hpd, hpage, ?_⟩
      rw [htitle]
      exact hline
  · rw [detect_headings]
    by_cases hfs : fontSizes doc = []
    · rw [if_pos hfs]
      exact List.Pairwise.nil
    · rw [if_neg hfs]
      apply pairwise_filterMap_of_pairwise _ (spansInfo doc)
        (enumFrom_lineInfos_mono doc.pages 0).2
      intro a b x y hS hfa hfb
      rw [(headingOf_some _ a x hfa).2.1, (headingOf_some _ b y hfb).2.1]
      omega

/-- C8 witness: the invariants instantiated at the heading `detect_headings`
finds in `exDocC1`. -/
theorem C8_detect_headings_witness :
    (2 ≤ introTitle.length ∧ introTitle.length ≤ 120 ∧ ((1 : Int) = 1 ∨ (1 : Int) = 2) ∧
      ∃ (p : Nat) (pd : PageData), exDocC1.pages[p]? = some pd ∧ (1 : Int) = (p : Int) + 1 ∧
        lineOccursOn pd introTitle) ∧
    List.Pairwise (fun a b : TocEntry => a.page ≤ b.page) (detect_headings exDocC1) := by
  have hmem : (⟨introTitle, 1, 1⟩ : TocEntry) ∈ detect_headings exDocC1 := by
    rw [detect_exDocC1]
    exact List.mem_singleton.mpr rfl
  exact ⟨(C8_detect_headings_invariants exDocC1).1 ⟨introTitle, 1, 1⟩ hmem,
    (C8_detect_headings_invariants exDocC1).2⟩


/-! ### Search-scan lemmas -/

/-- A Boolean test that does not hold is false. -/
theorem isPrefixOf_eq_false_of_not {p l : List Char} (hp : ¬ p.isPrefixOf l = true) :
    p.isPrefixOf l = false := by
  cases hb : p.isPrefixOf l
  · rfl
  · exact absurd hb hp

/-- If `findSub` fails, no suffix of the haystack starts with the pattern. -/
theorem findSub_none (p : List Char) :
    ∀ (h : List Char), findSub p h = none → ∀ i, p.isPrefixOf (h.drop i) = false := by
  intro h
  induction h with
  | nil =>
    intro hn i
    rw [findSub] at hn
    by_cases hp : p.isPrefixOf ([] : List Char)
    · rw [if_pos hp] at hn
      exact Option.noConfusion hn
    · rw [List.drop_nil]
      exact isPrefixOf_eq_false_of_not hp
  | cons c t ih =>
    intro hn i
    rw [findSub] at hn
    by_cases hp : p.isPrefixOf (c :: t)
    · rw [if_pos hp] at hn
      exact Option.noConfusion hn
    · rw [if_neg hp] at hn
      have ht : findSub p t = none := by
        cases hft : findSub p t with
        | none => rfl
        | some k =>
          rw [hft] at hn
          exact Option.noConfusion hn
      cases i with
      | zero => exact isPrefixOf_eq_false_of_not hp
      | succ i' => exact ih ht i'

/-- If `findSub` returns `k`, the pattern starts there and at no earlier
position: Python `find` returns the lowest match index. -/
theorem findSub_some (p : List Char) :
    ∀ (h : List Char) (k : Nat), findSub p h = some k →
      p.isPrefixOf (h.drop k) = true ∧ ∀ j, j < k → p.isPrefixOf (h.drop j) = false := by
  intro h
  induction h with
  | nil =>
    intro k hk
    rw [findSub] at hk
    by_cases hp : p.isPrefixOf ([] : List Char)
    · rw [if_pos hp, Option.some_inj] at hk
      subst hk
      exact ⟨hp, fun j hj => absurd hj (by omega)⟩
    · rw [if_neg hp] at hk
      exact Option.noConfusion hk
  | cons c t ih =>
    intro k hk
    rw [findSub] at hk
    by_cases hp : p.isPrefixOf (c :: t)
    · rw [if_pos hp, Option.some_inj] at hk
      subst hk
      exact ⟨hp, fun j hj => absurd hj (by omega)⟩
    · rw [if_neg hp] at hk
      cases hft : findSub p t with
      | none =>
        rw [hft] at hk
        exact Option.noConfusion hk
      | some k' =>
        rw [hft] at hk
        simp only [Option.map_some'] at hk
        rw [Option.some_inj] at hk
        subst hk
        have hr := ih k' hft
        refine ⟨hr.1, ?_⟩
        intro j hj
        cases j with
        | zero => exact isPrefixOf_eq_false_of_not hp
        | succ j' => exact hr.2 j' (by omega)

/-- A non-empty pattern can only be found inside the haystack. -/
theorem findSub_some_lt (p : List Char) (hne : p ≠ []) (h : List Char) (k : Nat)
    (hk : findSub p h = some k) : k < h.length := by
  have hpre := (findSub_some p h k hk).1
  by_contra hge
  push_neg at hge
  rw [List.drop_eq_nil_of_le hge] at hpre
  cases p with
  | nil => exact hne rfl
  | cons a as => simp [List.isPrefixOf] at hpre

/-- Positions below `s'` that fail the predicate can be skipped in the
range filter. -/
theorem filter_range_congr_ge (n s s' : Nat) (p : Nat → Bool) (hss : s ≤ s')
    (hskip : ∀ i, s ≤ i → i < s' → p i = false) :
    (List.range n).filter (fun i => decide (s ≤ i) && p i) =
      (List.range n).filter (fun i => decide (s' ≤ i) && p i) := by
  apply List.filter_congr
  intro i _
  by_cases h1 : s' ≤ i
  · have h2 : s ≤ i := by omega
    simp [h1, h2]
  · by_cases h2 : s ≤ i
    · simp [h1, h2, hskip i h2 (by omega)]
    · simp [h1, h2]

/-- Peeling the first passing position off the range filter. -/
theorem filter_range_take (n s : Nat) (p : Nat → Bool) (hp : p s = true) (hn : s < n) :
    (List.range n).filter (fun i => decide (s ≤ i) && p i) =
      s :: (List.range n).filter (fun i => decide (s + 1 ≤ i) && p i) := by
  induction n with
  | zero => omega
  | succ n ih =>
    rw [List.range_succ, List.filter_append, List.filter_append]
    by_cases hsn : s < n
    · rw [ih hsn]
      simp only [List.cons_append]
      congr 1
      have e1 : decide (s ≤ n) = true := by
        simp
        omega
      have e2 : decide (s + 1 ≤ n) = true := by
        simp
        omega
      simp [List.filter_cons, List.filter_nil, e1, e2]
    · have hs_eq : s = n := by omega
      subst hs_eq
      have hfe : (List.range s).filter (fun i => decide (s ≤ i) && p i) = [] := by
        rw [List.filter_eq_nil_iff]
        intro a ha
        rw [List.mem_range] at ha
        simp
        omega
      have hfe2 : (List.range s).filter (fun i => decide (s + 1 ≤ i) && p i) = [] := by
        rw [List.filter_eq_nil_iff]
        intro a ha
        rw [List.mem_range] at ha
        simp
        omega
      rw [hfe, hfe2]
      simp [List.filter_cons, List.filter_nil, hp]

/-- With enough fuel, the page scan enumerates exactly the match-start
positions at or after `s`. -/
theorem occsAux_eq (ql : List Char) (hq : ql ≠ []) (tl : List Char) :
    ∀ (fuel s : Nat), tl.length + 1 ≤ s + fuel →
      occsAux ql fuel s tl =
        (List.range tl.length).filter
          (fun i => decide (s ≤ i) && ql.isPrefixOf (tl.drop i)) := by
  intro fuel
  induction fuel with
  | zero =>
    intro s hs
    simp only [occsAux]
    symm
    rw [List.filter_eq_nil_iff]
    intro i hi
    rw [List.mem_range] at hi
    have : ¬ (s ≤ i) := by omega
    simp [this]
  | succ fuel ih =>
    intro s hs
    simp only [occsAux]
    cases hfs : findSub ql (tl.drop s) with
    | none =>
      show ([] : List Nat) =
        (List.range tl.length).filter (fun i => decide (s ≤ i) && ql.isPrefixOf (tl.drop i))
      symm
      rw [List.filter_eq_nil_iff]
      intro i hi
      rw [List.mem_range] at hi
      by_cases hsi : s ≤ i
      · have hnp := findSub_none ql (tl.drop s) hfs (i - s)
        rw [List.drop_drop] at hnp
        have harg : s + (i - s) = i := by omega
        rw [harg] at hnp
        simp [hsi, hnp]
      · simp [hsi]
    | some k =>
      show (s + k) :: occsAux ql fuel (s + k + 1) tl =
        (List.range tl.length).filter (fun i => decide (s ≤ i) && ql.isPrefixOf (tl.drop i))
      have hk := findSub_some ql (tl.drop s) k hfs
      have hklt : k < (tl.drop s).length := findSub_some_lt ql hq (tl.drop s) k hfs
      rw [List.length_drop] at hklt
      have hsk : s + k < tl.length := by omega
      have hpre : ql.isPrefixOf (tl.drop (s + k)) = true := by
        have h1 := hk.1
        rw [List.drop_drop] at h1
        exact h1
      have hskip : ∀ i, s ≤ i → i < s + k → ql.isPrefixOf (tl.drop i) = false := by
        intro i hsi hik
        have h2 := hk.2 (i - s) (by omega)
        rw [List.drop_drop] at h2
        have harg : s + (i - s) = i := by omega
        rw [harg] at h2
        exact h2
      rw [filter_range_congr_ge tl.length s (s + k) _ (by omega) hskip,
        filter_range_take tl.length (s + k) _ hpre hsk]
      congr 1
      exact ih (s + k + 1) (by omega)

/-- The page scan enumerates exactly the match-start positions. -/
theorem occs_eq (tl ql : List Char) (hq : ql ≠ []) :
    occs tl ql = (List.range tl.length).filter (fun i => ql.isPrefixOf (tl.drop i)) := by
  rw [occs, occsAux_eq ql hq tl (tl.length + 1) 0 (by omega)]
  apply List.filter_congr
  intro i _
  simp

/-- The number of counted hits of one page equals the specification-level
occurrence count (overlapping occurrences included). -/
theorem occs_length (tl ql : List Char) (hq : ql ≠ []) :
    (occs tl ql).length = countOcc tl ql := by
  rw [occs_eq tl ql hq, countOcc]

/-- Length of the materialised snippet list after one page: saturating
addition capped at `max_results`. -/
theorem appendSnips_length (maxR : Int) (raw : List Char) (pg qlen : Nat) :
    ∀ (ps : List Nat) (ms : List Snippet),
      (appendSnips maxR raw pg qlen ps ms).length =
        max ms.length (min (ms.length + ps.length) maxR.toNat) := by
  intro ps
  induction ps with
  | nil =>
    intro ms
    simp only [appendSnips, List.length_nil, Nat.add_zero]
    omega
  | cons pos ps ih =>
    intro ms
    simp only [appendSnips, List.length_cons]
    by_cases hc : (ms.length : Int) < maxR
    · rw [if_pos hc, ih]
      rw [List.length_append]
      simp only [List.length_singleton]
      omega
    · rw [if_neg hc, ih]
      omega


/-- The final tally of the page loop: one `(page, count)` pair per page with
at least one hit, appended in page order. -/
theorem searchPages_snd (maxR : Int) (qlen : Nat) (ql : List Char) :
    ∀ (l : List (Nat × PageData)) (ms : List Snippet) (tl : List (Nat × Nat)),
      (searchPages maxR qlen ql l ms tl).2 =
        tl ++ l.filterMap (fun pe =>
          if (occs (lowerStr pe.2.text) ql).length = 0 then none
          else some (pe.1 + 1, (occs (lowerStr pe.2.text) ql).length)) := by
  intro l
  induction l with
  | nil =>
    intro ms tl
    simp [searchPages]
  | cons pe rest ih =>
    intro ms tl
    simp only [searchPages]
    rw [ih, List.filterMap_cons]
    by_cases hc : (occs (lowerStr pe.2.text) ql).length = 0
    · rw [if_pos hc]
      simp [hc]
    · rw [if_neg hc]
      simp [hc, List.append_assoc]

/-- The final snippet-list length of the page loop: the total hit count
saturated at `max_results` (treating a negative cap as zero). -/
theorem searchPages_fst_length (maxR : Int) (qlen : Nat) (ql : List Char) :
    ∀ (l : List (Nat × PageData)) (ms : List Snippet) (tl : List (Nat × Nat)),
      (searchPages maxR qlen ql l ms tl).1.length =
        max ms.length
          (min (ms.length + (l.map (fun pe => (occs (lowerStr pe.2.text) ql).length)).sum)
            maxR.toNat) := by
  intro l
  induction l with
  | nil =>
    intro ms tl
    simp only [searchPages, List.map_nil, List.sum_nil, Nat.add_zero]
    omega
  | cons pe rest ih =>
    intro ms tl
    simp only [searchPages, List.map_cons, List.sum_cons]
    rw [ih, appendSnips_length]
    omega

/-- Summing the counts of the non-zero tally recovers the full sum. -/
theorem tally_sum {α : Type} (c : α → Nat) (k : α → Nat) :
    ∀ (l : List α),
      ((l.filterMap (fun a => if c a = 0 then none else some (k a, c a))).map
        Prod.snd).sum = (l.map c).sum := by
  intro l
  induction l with
  | nil => rfl
  | cons a t ih =>
    rw [List.filterMap_cons, List.map_cons, List.sum_cons]
    by_cases hc : c a = 0
    · simp [hc, ih]
    · simp [hc, ih]

/-- Sums over the enumerated list that only use the payload equal sums over
the plain list. -/
theorem enum_map_snd_sum {α : Type} (g : α → Nat) (l : List α) :
    (l.enum.map (fun pe => g pe.2)).sum = (l.map g).sum := by
  conv_rhs => rw [← List.enum_map_snd l]
  rw [List.map_map]
  rfl

/-- Enumeration indices are strictly increasing. -/
theorem enumFrom_pairwise_fst {α : Type} (l : List α) :
    ∀ (n : Nat), List.Pairwise (fun a b : Nat × α => a.1 < b.1) (List.enumFrom n l) := by
  induction l with
  | nil =>
    intro n
    simp
  | cons x t ih =>
    intro n
    rw [List.enumFrom_cons, List.pairwise_cons]
    refine ⟨?_, ih (n + 1)⟩
    intro b hb
    obtain ⟨bi, bx⟩ := b
    have h2 := List.mem_enumFrom hb
    show n < bi
    omega

/-- The canonical search breakdown lists pages in strictly ascending order. -/
theorem searchBreakdown_pairwise (doc : Document) (q : List Char) :
    List.Pairwise (fun a b : Nat × Nat => a.1 < b.1) (searchBreakdown doc q) := by
  rw [searchBreakdown]
  apply pairwise_filterMap_of_pairwise _ _ (enumFrom_pairwise_fst doc.pages 0)
  intro a b x y hS hfa hfb
  dsimp only at hfa hfb
  by_cases hca : countOcc (lowerStr a.2.text) (lowerStr q) = 0
  · rw [if_pos hca] at hfa
    exact absurd hfa (by simp)
  · rw [if_neg hca] at hfa
    by_cases hcb : countOcc (lowerStr b.2.text) (lowerStr q) = 0
    · rw [if_pos hcb] at hfb
      exact absurd hfb (by simp)
    · rw [if_neg hcb] at hfb
      rw [Option.some_inj] at hfa hfb
      subst hfa
      subst hfb
      show a.1 + 1 < b.1 + 1
      omega

/-- The tally of the search loop is the canonical breakdown. -/
theorem searchPages_snd_breakdown (doc : Document) (q : List Char)
    (hlq : lowerStr q ≠ []) (maxR : Int) :
    (searchPages maxR q.length (lowerStr q) doc.pages.enum [] []).2 =
      searchBreakdown doc q := by
  rw [searchPages_snd, List.nil_append, searchBreakdown]
  apply List.filterMap_congr
  intro pe _
  rw [occs_length _ _ hlq]

/-! ### C7 — search hit counting, snippet cap, breakdown (confirmed) -/

/-- C7: on every successful search, the reported total is the full
(overlap-inclusive) occurrence count across all pages regardless of
`max_results`, the breakdown is the per-page positive counts in ascending
page order, at most `max_results` snippets are materialised (exactly the
minimum of the total and the cap), and the follow-up note appears iff the
total exceeds the cap. -/
theorem C7_search_counts_spec (doc : Document) (q : List Char) (maxR : Int)
    (th : Nat) (bd : List (Nat × Nat)) (sn : List Snippet) (note : Bool)
    (hq : stripStr q ≠ [])
    (hok : pdf_search doc q maxR = .ok th bd sn note) :
    th = totalSearchHits doc q ∧
    bd = searchBreakdown doc q ∧
    sn.length = min (totalSearchHits doc q) maxR.toNat ∧
    List.Pairwise (fun a b : Nat × Nat => a.1 < b.1) bd ∧
    note = decide ((maxR : Int) < (th : Int)) := by
  have hqne : q ≠ [] := by
    intro h
    rw [h] at hq
    exact hq rfl
  have hlq : lowerStr q ≠ [] := by
    rw [lowerStr]
    exact fun h => hqne (List.map_eq_nil_iff.mp h)
  simp only [pdf_search] at hok
  rw [if_neg hq] at hok
  by_cases hS1 : (searchPages maxR q.length (lowerStr q) doc.pages.enum [] []).1 = []
  · rw [if_pos hS1] at hok
    exact absurd hok (by simp)
  · rw [if_neg hS1] at hok
    rw [SearchResult.ok.injEq] at hok
    obtain ⟨hth, hbd, hsn, hnote⟩ := hok
    have hsum :
        (((searchPages maxR q.length (lowerStr q) doc.pages.enum [] []).2.map
          Prod.snd).sum) = totalSearchHits doc q := by
      rw [searchPages_snd_breakdown doc q hlq maxR, searchBreakdown,
        tally_sum (fun pe => countOcc (lowerStr pe.2.text) (lowerStr q))
          (fun pe => pe.1 + 1) doc.pages.enum]
      rw [totalSearchHits]
      exact enum_map_snd_sum (fun p => countOcc (lowerStr p.text) (lowerStr q)) doc.pages
    refine ⟨?_, ?_, ?_, ?_, ?_⟩
    · rw [← hth, hsum]
    · rw [← hbd, searchPages_snd_breakdown doc q hlq maxR]
    · rw [← hsn, searchPages_fst_length]
      simp only [List.length_nil, Nat.zero_add]
      have hmapsum :
          (doc.pages.enum.map
            (fun pe => (occs (lowerStr pe.2.text) (lowerStr q)).length)).sum =
            totalSearchHits doc q := by
        rw [List.map_congr_left
          (fun pe _ => occs_length (lowerStr pe.2.text) (lowerStr q) hlq)]
        rw [totalSearchHits]
        exact enum_map_snd_sum (fun p => countOcc (lowerStr p.text) (lowerStr q)) doc.pages
      rw [hmapsum]
      omega
    · rw [← hbd, searchPages_snd_breakdown doc q hlq maxR]
      exact searchBreakdown_pairwise doc q
    · rw [← hnote, ← hth, hsum]

/-- C7 witness: the claim's own example — query `x` with `max_results = 2`
over pages `xxxxx` and `xxx` yields two snippets, a header total of 8 hits,
the breakdown `p.1(5), p.2(3)`, and the follow-up note. -/
theorem C7_search_counts_witness :
    pdf_search exDocS ['x'] 2 = SearchResult.ok 8 [(1, 5), (2, 3)] exSn true ∧
    (8 = totalSearchHits exDocS ['x'] ∧
     [(1, 5), (2, 3)] = searchBreakdown exDocS ['x'] ∧
     exSn.length = min (totalSearchHits exDocS ['x']) ((2 : Int)).toNat ∧
     List.Pairwise (fun a b : Nat × Nat => a.1 < b.1) [(1, 5), (2, 3)] ∧
     true = decide ((2 : Int) < ((8 : Nat) : Int))) := by
  have hok : pdf_search exDocS ['x'] 2 = SearchResult.ok 8 [(1, 5), (2, 3)] exSn true := by
    decide
  exact ⟨hok, C7_search_counts_spec exDocS ['x'] 2 8 [(1, 5), (2, 3)] exSn true (by decide) hok⟩

/-! ### C10 — `max_results ≤ 0` yields the no-results outcome (confirmed) -/

/-- C10: with a non-positive `max_results`, no snippet is ever materialised,
so even a document full of matches produces the bare no-results message with
no header, total or breakdown. -/
theorem C10_search_nonpositive_cap (doc : Document) (q : List Char) (maxR : Int)
    (hq : stripStr q ≠ []) (hmr : maxR ≤ 0) (_hhits : 0 < totalSearchHits doc q) :
    pdf_search doc q maxR = .noResults := by
  simp only [pdf_search]
  rw [if_neg hq]
  have hzero : (searchPages maxR q.length (lowerStr q) doc.pages.enum [] []).1 = [] := by
    rw [← List.length_eq_zero, searchPages_fst_length]
    simp only [List.length_nil, Nat.zero_add]
    omega
  rw [if_pos hzero]

/-- C10 witness: searching `x` with `max_results = 0` over a document holding
eight matches returns the no-results outcome. -/
theorem C10_search_nonpositive_cap_witness :
    pdf_search exDocS ['x'] 0 = SearchResult.noResults :=
  C10_search_nonpositive_cap exDocS ['x'] 0 (by decide) (by decide) (by decide)


/-! ### Image-extraction lemmas -/

/-- What the extraction loop produces over the enumerated image list: two
entries per surviving image, one skip per failing or undersized image, and
every surviving image present in the output with its enumerate index. -/
theorem processImages_enumFrom (imgs : List PageImage) :
    ∀ (n : Nat),
      (processImages (List.enumFrom n imgs)).1.length =
        2 * (imgs.filter imgSurvives).length ∧
      (processImages (List.enumFrom n imgs)).2 =
        imgs.length - (imgs.filter imgSurvives).length ∧
      (∀ (i : Nat) (img : PageImage) (info : ImageInfo),
        imgs[i]? = some img → img.extract = some info → info.data ≠ [] →
        50 ≤ info.width → 50 ≤ info.height →
        ImgEntry.image info.data (mimeOf info.ext) ∈ (processImages (List.enumFrom n imgs)).1 ∧
        ImgEntry.caption (n + i) info.width info.height info.ext ∈
          (processImages (List.enumFrom n imgs)).1) := by
  induction imgs with
  | nil =>
    intro n
    refine ⟨by simp [processImages], by simp [processImages], ?_⟩
    intro i img info hget
    simp at hget
  | cons img0 rest ih =>
    intro n
    obtain ⟨ihlen, ihskip, ihmem⟩ := ih (n + 1)
    have hfle := List.length_filter_le imgSurvives rest
    rw [List.enumFrom_cons]
    cases hx : img0.extract with
    | none =>
      have hsv : imgSurvives img0 = false := by
        simp [imgSurvives, hx]
      simp only [processImages, hx, List.filter_cons, hsv, Bool.false_eq_true, if_false,
        List.length_cons]
      refine ⟨ihlen, by rw [ihskip]; omega, ?_⟩
      intro i img info hget hxi hd hw hh
      cases i with
      | zero =>
        rw [List.getElem?_cons_zero, Option.some_inj] at hget
        subst hget
        rw [hx] at hxi
        exact absurd hxi (by simp)
      | succ i' =>
        rw [List.getElem?_cons_succ] at hget
        have harg : n + (i' + 1) = (n + 1) + i' := by omega
        rw [harg]
        exact ihmem i' img info hget hxi hd hw hh
    | some info0 =>
      by_cases hd0 : info0.data = []
      · have hsv : imgSurvives img0 = false := by
          simp [imgSurvives, hx, hd0]
        simp only [processImages, hx, hd0, if_pos, List.filter_cons, hsv, Bool.false_eq_true,
          if_false, List.length_cons]
        refine ⟨ihlen, by rw [ihskip]; omega, ?_⟩
        intro i img info hget hxi hd hw hh
        cases i with
        | zero =>
          rw [List.getElem?_cons_zero, Option.some_inj] at hget
          subst hget
          rw [hx, Option.some_inj] at hxi
          subst hxi
          exact absurd hd0 hd
        | succ i' =>
          rw [List.getElem?_cons_succ] at hget
          have harg : n + (i' + 1) = (n + 1) + i' := by omega
          rw [harg]
          exact ihmem i' img info hget hxi hd hw hh
      · by_cases hwh : info0.width < 50 ∨ info0.height < 50
        · have hsv : imgSurvives img0 = false := by
            simp only [imgSurvives, hx]
            rcases hwh with hw | hh
            · simp [hw]
            · simp [hh]
          simp only [processImages, hx, List.filter_cons, hsv, Bool.false_eq_true, if_false,
            List.length_cons]
          rw [if_neg hd0, if_pos hwh]
          refine ⟨ihlen, by rw [ihskip]; omega, ?_⟩
          intro i img info hget hxi hd hw hh
          cases i with
          | zero =>
            rw [List.getElem?_cons_zero, Option.some_inj] at hget
            subst hget
            rw [hx, Option.some_inj] at hxi
            subst hxi
            exact absurd hwh (by omega)
          | succ i' =>
            rw [List.getElem?_cons_succ] at hget
            have harg : n + (i' + 1) = (n + 1) + i' := by omega
            rw [harg]
            exact ihmem i' img info hget hxi hd hw hh
        · have hsv : imgSurvives img0 = true := by
            simp only [imgSurvives, hx]
            push_neg at hwh
            simp [hd0]
            omega
          simp only [processImages, hx, List.filter_cons, hsv, if_true, List.length_cons]
          rw [if_neg hd0, if_neg hwh]
          refine ⟨by simp only [List.length_cons]; omega,
            by simp only [ihskip]; omega, ?_⟩
          intro i img info hget hxi hd hw hh
          cases i with
          | zero =>
            rw [List.getElem?_cons_zero, Option.some_inj] at hget
            subst hget
            rw [hx, Option.some_inj] at hxi
            subst hxi
            refine ⟨List.mem_cons_self _ _, ?_⟩
            rw [Nat.add_zero]
            exact List.mem_cons_of_mem _ (List.mem_cons_self _ _)
          | succ i' =>
            rw [List.getElem?_cons_succ] at hget
            have harg : n + (i' + 1) = (n + 1) + i' := by omega
            rw [harg]
            obtain ⟨hm1, hm2⟩ := ihmem i' img info hget hxi hd hw hh
            exact ⟨List.mem_cons_of_mem _ (List.mem_cons_of_mem _ hm1),
              List.mem_cons_of_mem _ (List.mem_cons_of_mem _ hm2)⟩


/-! ### C9 — per-image independence of extraction (confirmed) -/

/-- C9: on a valid page with embedded images, each image is processed
independently — a failed extraction, empty payload or sub-50×50 dimensions
adds one to the skip count without aborting the page — the summary counts
exactly the surviving images (with `skipped = total - extracted`), every
surviving image appears in the returned entries, and if nothing survives the
distinct all-filtered outcome is reported. -/
theorem C9_image_extraction_spec (doc : Document) (p : Int) (pd : PageData)
    (h1 : 1 ≤ p) (h2 : p ≤ (doc.pages.length : Int))
    (hpd : doc.pages[(p - 1).toNat]? = some pd)
    (hne : pd.images ≠ []) :
    (pd.images.filter imgSurvives = [] ∧
      pdf_get_page_images doc p = .allFiltered p pd.images.length) ∨
    (pd.images.filter imgSurvives ≠ [] ∧
      ∃ entries,
        pdf_get_page_images doc p =
          .ok p (pd.images.filter imgSurvives).length
            (pd.images.length - (pd.images.filter imgSurvives).length) entries ∧
        entries.length = 2 * (pd.images.filter imgSurvives).length ∧
        (∀ (i : Nat) (img : PageImage) (info : ImageInfo),
          pd.images[i]? = some img → img.extract = some info → info.data ≠ [] →
          50 ≤ info.width → 50 ≤ info.height →
          ImgEntry.image info.data (mimeOf info.ext) ∈ entries ∧
          ImgEntry.caption i info.width info.height info.ext ∈ entries)) := by
  have hrange : ¬ (p < 1 ∨ (doc.pages.length : Int) < p) := by omega
  have hgetD : (doc.pages.getD (p - 1).toNat ⟨[], [], []⟩).images = pd.images := by
    rw [List.getD_eq_getElem?_getD, hpd]
    rfl
  have henum : pd.images.enum = List.enumFrom 0 pd.images := rfl
  obtain ⟨hlen, hskip, hmem⟩ := processImages_enumFrom pd.images 0
  simp only [pdf_get_page_images]
  rw [if_neg hrange, hgetD, if_neg hne, henum]
  by_cases hsv : pd.images.filter imgSurvives = []
  · left
    refine ⟨hsv, ?_⟩
    have hres : (processImages (List.enumFrom 0 pd.images)).1 = [] := by
      rw [← List.length_eq_zero, hlen, hsv]
      rfl
    rw [if_pos hres]
  · right
    have hres : (processImages (List.enumFrom 0 pd.images)).1 ≠ [] := by
      intro habs
      apply hsv
      rw [← List.length_eq_zero]
      have := hlen
      rw [habs] at this
      simp only [List.length_nil] at this
      omega
    rw [if_neg hres]
    refine ⟨hsv, (processImages (List.enumFrom 0 pd.images)).1, ?_, hlen, ?_⟩
    · have hdiv : (processImages (List.enumFrom 0 pd.images)).1.length / 2 =
          (pd.images.filter imgSurvives).length := by
        rw [hlen]
        omega
      rw [hdiv, hskip]
    · intro i img info hget hx hd hw hh
      have hm := hmem i img info hget hx hd hw hh
      rw [Nat.zero_add] at hm
      exact hm

/-- C9 witness: the claim's three-image example — sizes 10×10, 60×60 and
200×100 give exactly 2 extracted images (4 content entries) and 1 skip. -/
theorem C9_image_extraction_witness :
    ∃ entries,
      pdf_get_page_images exDocI 1 = ImagesResult.ok 1 2 1 entries ∧
      entries.length = 4 := by
  have h := C9_image_extraction_spec exDocI 1
    ⟨[], [], [exImg 10 10, exImg 60 60, exImg 200 100]⟩
    (by decide) (by decide) (by decide) (by decide)
  rcases h with ⟨hfe, _⟩ | ⟨_, entries, hok, hlen, _⟩
  · exact absurd hfe (by decide)
  · refine ⟨entries, ?_, ?_⟩
    · rw [hok]
      have hflt :
          ((⟨[], [], [exImg 10 10, exImg 60 60, exImg 200 100]⟩ : PageData).images.filter
            imgSurvives).length = 2 := by
        decide
      rw [hflt]
      rfl
    · rw [hlen]
      have hflt :
          ((⟨[], [], [exImg 10 10, exImg 60 60, exImg 200 100]⟩ : PageData).images.filter
            imgSurvives).length = 2 := by
        decide
      rw [hflt]

end PdfSpec
